import Mathlib

/-!
Verification of the Morse protocol decoder (`pd.py`).

The decoder is a three-stage lazy pipeline:
  `decode_symbols` (edge classification + adaptive time-unit tracking) →
  `decode_morse` (symbol-to-letter grouping) →
  `decode` (letter-to-word grouping and annotation output).

We embed the pipeline shallowly: sample numbers are `ℕ`, Python floats are
modelled as exact rationals `ℚ`, Python `int` values as `ℤ`, a Python
generator becomes a function from its (finite) input list to the list of
values it yields, and the host `self.put(...)` annotation calls become
explicit output constructors.  A Python exception (`ZeroDivisionError`,
`KeyError`) is modelled as a sentinel output after which the producing
stage emits nothing further (`none` as the successor state).
-/

/-- Python's builtin `round` on an exact rational: round to the nearest
integer, ties to the even integer (banker's rounding).  Used at
`iunits = round(units)` (pd.py line 176). -/
def pyRound (q : ℚ) : ℤ :=
  let f : ℤ := q.floor
  let r : ℚ := q - f
  if r < 1/2 then f
  else if r = 1/2 then (if 2 ∣ f then f else f + 1)
  else f + 1

/-- The executable floor on `ℚ` agrees with the mathematical floor. -/
theorem ratFloor_eq_floor (q : ℚ) : q.floor = ⌊q⌋ :=
  (Rat.floor_def' q).trans Rat.floor_def.symm

/-- One result of the host `self.wait([{0: edge}, {skip: n}])` call
(pd.py line 170): either the next edge, carrying the sample number at
which it occurred and the new pin value, or the skip timeout. -/
inductive Event
  | edge (samplenum : ℕ) (val : ℤ)
  | timeout
deriving DecidableEq

/-- Observable outputs of `decode_symbols`: the two per-interval
annotations (`self.put` with annotation rows 0 and 1, pd.py lines
185-186; the formatted text of an annotation is not modelled, only its
placement and row), a yielded classified symbol (line 189), a yielded
flush marker `None` (line 182), and the `ZeroDivisionError` raised by
`dt / iunits` when `iunits` is zero (line 193). -/
inductive SymOut
  | ann (t0 t1 : ℕ) (row : ℕ)
  | yieldSym (t0 t1 : ℕ) (pval iunits : ℤ)
  | yieldFlush
  | divByZero
deriving DecidableEq

/-- Mutable state of the `decode_symbols` loop: `prevtime` (the sample
number of the previous edge) and the adaptively tracked `timeunit`. -/
structure SymState where
  prevtime : ℕ
  timeunit : ℚ
deriving DecidableEq

/-- The `symbols` dict of pd.py (lines 108-118): recognized
(level, time-units) pairs with their printable forms. -/
def symbols : List ((ℤ × ℤ) × String) :=
  [((1, 1), "*"),
   ((1, 3), "==="),
   ((0, 1), "_"),
   ((0, 3), "__"),
   ((0, 7), "___")]

/-- One iteration of the `decode_symbols` loop body (pd.py lines
170-194) on one wait result.  On a timeout (`self.matched[1]`), yield a
flush marker and leave the state untouched (`continue`).  On an edge,
compute `dt`, `units`, `iunits`, emit the two annotations, yield the
classified symbol if `(pval, iunits)` is a key of `symbols`, then adapt:
`timeunit += (dt/iunits - timeunit) * 0.02 * iunits`.  When `iunits = 0`
the adaptation divides by zero (modelled by `SymOut.divByZero` and a
`none` successor state). -/
def symStep (samplerate : ℚ) (st : SymState) (ev : Event) :
    List SymOut × Option SymState :=
  match ev with
  | Event.timeout => ([SymOut.yieldFlush], some st)
  | Event.edge curtime val =>
      let pval : ℤ := 1 - val
      let dt : ℚ := ((curtime : ℚ) - (st.prevtime : ℚ)) / samplerate
      let units : ℚ := dt / st.timeunit
      let iunits : ℤ := pyRound units
      let anns : List SymOut := [SymOut.ann st.prevtime curtime 0, SymOut.ann st.prevtime curtime 1]
      let ys : List SymOut :=
        if (pval, iunits) ∈ symbols.map Prod.fst then
          [SymOut.yieldSym st.prevtime curtime pval iunits]
        else []
      if iunits = 0 then (anns ++ ys ++ [SymOut.divByZero], none)
      else
        let thisunit : ℚ := dt / (iunits : ℚ)
        (anns ++ ys,
         some ⟨curtime, st.timeunit + (thisunit - st.timeunit) * (2/100) * (iunits : ℚ)⟩)

/-- The `decode_symbols` loop run over a finite list of wait results:
concatenates the outputs of each iteration, stopping (no further
output) once an iteration raises. -/
def decodeSymbolsAux (samplerate : ℚ) (st : SymState) : List Event → List SymOut
  | [] => []
  | ev :: rest =>
      match symStep samplerate st ev with
      | (outs, some st') => outs ++ decodeSymbolsAux samplerate st' rest
      | (outs, none) => outs

/-- The `decode_symbols` generator (pd.py lines 159-194): after the
initial wait for a rising edge at sample `firstRise` (line 166-167), run
the loop with `prevtime = firstRise` and the configured time-unit
guess. -/
def decode_symbols (samplerate timeunit : ℚ) (firstRise : ℕ) (events : List Event) :
    List SymOut :=
  decodeSymbolsAux samplerate ⟨firstRise, timeunit⟩ events

/-- The dit/dah value of one character of a code string, as in
`{'-': 3, '.': 1}[c]` (pd.py line 27); `none` models the `KeyError` on
any other character. -/
def ditdahVal (c : Char) : Option ℤ :=
  if c = '-' then some 3 else if c = '.' then some 1 else none

/-- The character for one dit/dah value, as in `{1: '.', 3: '-'}[c]`
(pd.py line 30); `none` models the `KeyError` on any other value. -/
def ditdahChar (v : ℤ) : Option Char :=
  if v = 1 then some '.' else if v = 3 then some '-' else none

/-- Helper for `decode_ditdah`: the tuple built from the characters of a
code string, failing on the first unknown character. -/
def decodeDitdahList : List Char → Option (List ℤ)
  | [] => some []
  | c :: cs =>
      match ditdahVal c, decodeDitdahList cs with
      | some v, some vs => some (v :: vs)
      | _, _ => none

/-- The `decode_ditdah` function (pd.py lines 26-27): a dots/dashes
string to a tuple of small integers. -/
def decode_ditdah (s : String) : Option (List ℤ) :=
  decodeDitdahList s.data

/-- Helper for `encode_ditdah`: the characters for a tuple of dit/dah
values, failing on the first value outside `{1, 3}`. -/
def encodeDitdahList : List ℤ → Option (List Char)
  | [] => some []
  | v :: vs =>
      match ditdahChar v, encodeDitdahList vs with
      | some c, some cs => some (c :: cs)
      | _, _ => none

/-- The `encode_ditdah` function (pd.py lines 29-30): a tuple of dit/dah
values joined into a dots/dashes string. -/
def encode_ditdah (tpl : List ℤ) : Option String :=
  (encodeDitdahList tpl).map String.mk

/-- The literal `alphabet` dict of pd.py (lines 36-102), before the
re-keying of line 104: dots/dashes strings to characters/prosigns. -/
def alphabetStrings : List (String × String) :=
  [(".-", "a"), ("-...", "b"), ("-.-.", "c"), ("-..", "d"), (".", "e"),
   ("..-..", "é"), ("..-.", "f"), ("--.", "g"), ("....", "h"), ("..", "i"),
   (".---", "j"), ("-.-", "k"), (".-..", "l"), ("--", "m"), ("-.", "n"),
   ("---", "o"), (".--.", "p"), ("--.-", "q"), (".-.", "r"), ("...", "s"),
   ("-", "t"), ("..-", "u"), ("...-", "v"), (".--", "w"), ("-..-", "x"),
   ("-.--", "y"), ("--..", "z"),
   (".----", "1"), ("..---", "2"), ("...--", "3"), ("....-", "4"),
   (".....", "5"), ("-....", "6"), ("--...", "7"), ("---..", "8"),
   ("----.", "9"), ("-----", "0"),
   (".-.-.-", "."), ("--..--", ","), ("---...", ":"), ("..--..", "?"),
   (".----.", "’"), ("-....-", "-"), ("-..-.", "/"), ("-.--.", "("),
   ("-.--.-", ")"), (".-..-.", "“ ”"), ("-...-", "="),
   ("...-.", "UNDERSTOOD"), ("........", "ERROR"), (".-.-.", "+"),
   (".-...", "WAIT"), ("...-.-", "EOW"), ("-.-.-", "START"), (".--.-.", "@")]

/-- The re-keyed `alphabet` (pd.py line 104): keys decoded to dit/dah
tuples.  Every key of `alphabetStrings` decodes successfully, so the
`filterMap` drops nothing. -/
def alphabet : List (List ℤ × String) :=
  alphabetStrings.filterMap fun kv => (decode_ditdah kv.1).map fun k => (k, kv.2)

/-- Letter resolution (pd.py line 222):
`alphabet.get(sequence, encode_ditdah(sequence))`.  Python evaluates the
default eagerly, so the whole expression raises (is `none`) exactly when
`encode_ditdah` raises; otherwise it is the table entry when present,
else the literal dots/dashes rendering. -/
def resolve (sequence : List ℤ) : Option String :=
  (encode_ditdah sequence).map fun d => (alphabet.lookup sequence).getD d

/-- Items of the symbol stream as seen by `decode_morse` (pd.py line
201): a yielded `(t0, t1, (sval, sunits))` triple or the `None` flush
marker. -/
inductive SymItem
  | sym (t0 t1 : ℕ) (sval sunits : ℤ)
  | flush
deriving DecidableEq

/-- The yielded items of a `decode_symbols` output list, in order (the
annotations are host side effects, not part of the generator's item
stream). -/
def symItems (outs : List SymOut) : List SymItem :=
  outs.filterMap fun o =>
    match o with
    | SymOut.yieldSym t0 t1 p u => some (SymItem.sym t0 t1 p u)
    | SymOut.yieldFlush => some SymItem.flush
    | _ => none

/-- Items yielded by `decode_morse`: a resolved letter `(s0, s1, text)`,
the passed-through `None` flush marker, or the `KeyError` raised by
`encode_ditdah` on a sequence value outside `{1, 3}` (pd.py line 222). -/
inductive MorseOut
  | letter (t0 t1 : Option ℕ) (txt : String)
  | flush
  | crash
deriving DecidableEq

/-- Mutable state of `decode_morse` (pd.py lines 198-199): the
accumulated dit/dah `sequence` and the letter timestamps `s0`, `s1`. -/
structure MorseState where
  sequence : List ℤ
  s0 : Option ℕ
  s1 : Option ℕ
deriving DecidableEq

/-- The `do_yield` block of `decode_morse` (pd.py lines 220-227): if the
sequence is non-empty, resolve and yield the letter and clear the
state; then, when the trigger was an upstream flush (`item is None`),
yield the flush marker onward. -/
def flushLetter (st : MorseState) (passFlush : Bool) :
    List MorseOut × Option MorseState :=
  if st.sequence ≠ [] then
    match resolve st.sequence with
    | some txt =>
        (MorseOut.letter st.s0 st.s1 txt ::
           (if passFlush then [MorseOut.flush] else []),
         some ⟨[], none, none⟩)
    | none => ([MorseOut.crash], none)
  else
    ((if passFlush then [MorseOut.flush] else []), some st)

/-- One iteration of the `decode_morse` loop body (pd.py lines 201-227)
on one upstream item.  A mark symbol appends its unit count and updates
the timestamps; a space symbol of 3 or more units triggers a letter
flush without pass-through; shorter spaces do nothing; an upstream
flush marker triggers a letter flush and is then passed through. -/
def morseStep (st : MorseState) (item : SymItem) :
    List MorseOut × Option MorseState :=
  match item with
  | SymItem.sym t0 t1 sval sunits =>
      if sval = 1 then
        ([], some ⟨st.sequence ++ [sunits],
                   (if st.s0 = none then some t0 else st.s0), some t1⟩)
      else if 3 ≤ sunits then flushLetter st false
      else ([], some st)
  | SymItem.flush => flushLetter st true

/-- The `decode_morse` loop run over a finite item list, stopping once
an iteration raises. -/
def decodeMorseAux (st : MorseState) : List SymItem → List MorseOut
  | [] => []
  | it :: rest =>
      match morseStep st it with
      | (outs, some st') => outs ++ decodeMorseAux st' rest
      | (outs, none) => outs

/-- The `decode_morse` generator (pd.py lines 196-227) from its initial
state: empty sequence, unset timestamps. -/
def decode_morse (items : List SymItem) : List MorseOut :=
  decodeMorseAux ⟨[], none, none⟩ items

/-- Host-visible outputs of the top-level `decode` method: the letter
annotations (row 3, pd.py line 238) and the word annotations (row 4,
line 249). -/
inductive DecodeOut
  | annLetter (t0 t1 : Option ℕ) (text : String)
  | annWord (t0 t1 : Option ℕ) (text : String)
deriving DecidableEq

/-- Mutable state of `decode` (pd.py lines 231-232): the word
timestamps and the accumulated word buffer. -/
structure WordState where
  s0 : Option ℕ
  s1 : Option ℕ
  word : String
deriving DecidableEq

/-- One iteration of the `decode` loop body (pd.py lines 233-251) on one
upstream item.  A letter is annotated immediately and appended to the
word buffer; a flush marker annotates and clears a non-empty word
buffer and does nothing otherwise; an upstream exception ends the
loop. -/
def decodeStep (st : WordState) (item : MorseOut) :
    List DecodeOut × Option WordState :=
  match item with
  | MorseOut.letter t0 t1 txt =>
      ([DecodeOut.annLetter t0 t1 txt],
       some ⟨(if st.s0 = none then t0 else st.s0), t1, st.word ++ txt⟩)
  | MorseOut.flush =>
      if st.word ≠ "" then
        ([DecodeOut.annWord st.s0 st.s1 st.word], some ⟨none, none, ""⟩)
      else ([], some st)
  | MorseOut.crash => ([], none)

/-- The `decode` loop run over a finite item list, returning the emitted
annotations and the final state (`none` once an upstream exception ends
the run). -/
def decodeAux (st : WordState) : List MorseOut → List DecodeOut × Option WordState
  | [] => ([], some st)
  | it :: rest =>
      match decodeStep st it with
      | (outs, some st') =>
          let r := decodeAux st' rest
          (outs ++ r.1, r.2)
      | (outs, none) => (outs, none)

/-- The full three-stage pipeline (pd.py `decode` driving `decode_morse`
driving `decode_symbols`): letter and word annotations produced for a
finite list of wait results, from the initial states of all three
stages. -/
def pipeline (samplerate timeunit : ℚ) (firstRise : ℕ) (events : List Event) :
    List DecodeOut :=
  (decodeAux ⟨none, none, ""⟩
    (decode_morse (symItems (decode_symbols samplerate timeunit firstRise events)))).1

/-- Modelled from the spec: the host `wait([{0: edge}, {skip: n}])`
protocol (spec section 6) for one inter-edge gap.  The source of
level-transition events is external to pd.py; per the spec the wait
blocks until either the next edge or a timeout of `n` samples,
whichever occurs first, and pd.py (line 181) checks the timeout match
first, so while the next edge at sample `e` is `skip` or more samples
away the wait reports a timeout `skip` samples later; an edge exactly on
the timeout boundary is consumed by the timeout match.  The wait loop
for a single gap, started at sample `pos`, therefore produces a list of
timeouts followed by the edge (the edge is dropped when it falls on a
timeout boundary). -/
def waitEvents (skip pos e : ℕ) (val : ℤ) : List Event :=
  if h : 0 < skip ∧ pos + skip ≤ e then
    Event.timeout ::
      (if h2 : pos + skip = e then [] else waitEvents skip (pos + skip) e val)
  else [Event.edge e val]
termination_by e - pos
decreasing_by
  simp_wf
  omega

/-!  Helper lemmas. -/

theorem pyRound_eq_floor_of (q : ℚ) (f : ℤ) (hf : ⌊q⌋ = f) (h1 : q - f < 1/2) :
    pyRound q = f := by
  simp only [pyRound, ratFloor_eq_floor, hf]
  rw [if_pos h1]

theorem pyRound_cast_le (q : ℚ) : (pyRound q : ℚ) ≤ q + 1/2 := by
  have h0 := Int.floor_le q
  have h1 := Int.lt_floor_add_one q
  simp only [pyRound, ratFloor_eq_floor]
  split_ifs with ha hb hc
  · linarith
  · linarith
  · push_cast
    linarith
  · push_cast
    linarith

theorem one_le_pyRound (q : ℚ) (h : 1/2 < q) : 1 ≤ pyRound q := by
  have h0 := Int.floor_le q
  have h1 := Int.lt_floor_add_one q
  have hnn : 0 ≤ ⌊q⌋ := Int.floor_nonneg.mpr (by linarith)
  simp only [pyRound, ratFloor_eq_floor]
  rcases Int.lt_or_le 0 ⌊q⌋ with hpos | hz
  · split_ifs <;> omega
  · have hfz : ⌊q⌋ = 0 := le_antisymm hz hnn
    rw [hfz]
    have hr : 1/2 < q - ((0 : ℤ) : ℚ) := by
      push_cast
      linarith
    rw [if_neg (by linarith), if_neg (by linarith)]
    norm_num

theorem mem_symbols_iff (p : ℤ × ℤ) :
    p ∈ symbols.map Prod.fst ↔
      p = (1, 1) ∨ p = (1, 3) ∨ p = (0, 1) ∨ p = (0, 3) ∨ p = (0, 7) := by
  simp [symbols]

/-- Evaluation rule for one edge iteration of `decode_symbols`, given the
value of the rounded unit count. -/
theorem symStep_edge_eval (sr : ℚ) (st : SymState) (t : ℕ) (v : ℤ) (iu : ℤ)
    (hiu : pyRound ((((t : ℚ) - (st.prevtime : ℚ)) / sr) / st.timeunit) = iu) :
    symStep sr st (Event.edge t v) =
      (if iu = 0 then
        ([SymOut.ann st.prevtime t 0, SymOut.ann st.prevtime t 1] ++
           (if (1 - v, iu) ∈ symbols.map Prod.fst then
             [SymOut.yieldSym st.prevtime t (1 - v) iu] else []) ++
           [SymOut.divByZero], none)
       else
        ([SymOut.ann st.prevtime t 0, SymOut.ann st.prevtime t 1] ++
           (if (1 - v, iu) ∈ symbols.map Prod.fst then
             [SymOut.yieldSym st.prevtime t (1 - v) iu] else []),
         some ⟨t, st.timeunit +
           ((((t : ℚ) - (st.prevtime : ℚ)) / sr) / (iu : ℚ) - st.timeunit) *
             (2/100) * (iu : ℚ)⟩)) := by
  subst hiu
  rfl

theorem encodeDitdahList_total (tpl : List ℤ) (h : ∀ x ∈ tpl, x = 1 ∨ x = 3) :
    ∃ cs, encodeDitdahList tpl = some cs ∧ decodeDitdahList cs = some tpl := by
  induction tpl with
  | nil => exact ⟨[], rfl, rfl⟩
  | cons v vs ih =>
      obtain ⟨cs, hcs, hdec⟩ := ih fun x hx => h x (List.mem_cons_of_mem _ hx)
      rcases h v (List.mem_cons_self _ _) with h1 | h3
      · subst h1
        exact ⟨'.' :: cs, by simp [encodeDitdahList, ditdahChar, hcs],
               by simp [decodeDitdahList, ditdahVal, hdec]⟩
      · subst h3
        exact ⟨'-' :: cs, by simp [encodeDitdahList, ditdahChar, hcs],
               by simp [decodeDitdahList, ditdahVal, hdec]⟩

theorem flush_not_mem_flushLetter (st : MorseState) :
    MorseOut.flush ∉ (flushLetter st false).1 := by
  by_cases h : st.sequence = []
  · rw [flushLetter, if_neg (not_not_intro h)]
    simp
  · rw [flushLetter, if_pos h]
    cases hres : resolve st.sequence with
    | some txt => simp [hres]
    | none => simp [hres]

theorem flush_not_mem_morseStep (st : MorseState) (it : SymItem)
    (h : it ≠ SymItem.flush) : MorseOut.flush ∉ (morseStep st it).1 := by
  cases it with
  | flush => exact absurd rfl h
  | sym t0 t1 sval sunits =>
      simp only [morseStep]
      by_cases h1 : sval = 1
      · rw [if_pos h1]
        exact List.not_mem_nil _
      · rw [if_neg h1]
        by_cases h2 : 3 ≤ sunits
        · rw [if_pos h2]
          exact flush_not_mem_flushLetter st
        · rw [if_neg h2]
          exact List.not_mem_nil _

theorem flush_not_mem_decodeMorseAux (st : MorseState) (items : List SymItem)
    (h : SymItem.flush ∉ items) :
    MorseOut.flush ∉ decodeMorseAux st items := by
  induction items generalizing st with
  | nil => simp [decodeMorseAux]
  | cons it rest ih =>
      have hne : it ≠ SymItem.flush := fun he => h (he ▸ List.mem_cons_self _ _)
      have hrest : SymItem.flush ∉ rest := fun hm => h (List.mem_cons_of_mem _ hm)
      simp only [decodeMorseAux]
      cases hstep : morseStep st it with
      | mk outs ost =>
          cases ost with
          | some st' =>
              intro hmem
              rcases List.mem_append.mp hmem with hm | hm
              · exact flush_not_mem_morseStep st it hne (by rw [hstep]; exact hm)
              · exact ih st' hrest hm
          | none =>
              intro hmem
              exact flush_not_mem_morseStep st it hne (by rw [hstep]; exact hmem)

theorem decodeAux_no_flush (wst : WordState) (items : List MorseOut)
    (h : ∀ it ∈ items, it ≠ MorseOut.flush ∧ it ≠ MorseOut.crash) :
    (∀ a b w, DecodeOut.annWord a b w ∉ (decodeAux wst items).1) ∧
    (∃ a b, (decodeAux wst items).2 =
        some ⟨a, b, items.foldl
          (fun acc it =>
            match it with
            | MorseOut.letter _ _ txt => acc ++ txt
            | _ => acc) wst.word⟩) := by
  induction items generalizing wst with
  | nil => exact ⟨by simp [decodeAux], ⟨wst.s0, wst.s1, rfl⟩⟩
  | cons it rest ih =>
      obtain ⟨hne, hnc⟩ := h it (List.mem_cons_self _ _)
      have hrest := fun x hx => h x (List.mem_cons_of_mem _ hx)
      cases it with
      | flush => exact absurd rfl hne
      | crash => exact absurd rfl hnc
      | letter t0 t1 txt =>
          obtain ⟨hno, a, b, hstate⟩ :=
            ih ⟨(if wst.s0 = none then t0 else wst.s0), t1, wst.word ++ txt⟩ hrest
          constructor
          · intro a' b' w' hmem
            simp only [decodeAux, decodeStep] at hmem
            rcases List.mem_append.mp hmem with hm | hm
            · simp at hm
            · exact hno a' b' w' hm
          · exact ⟨a, b, by simpa [decodeAux, decodeStep] using hstate⟩

theorem decodeStep_annWord_iff (wst : WordState) (item : MorseOut) :
    ((∃ a b w, DecodeOut.annWord a b w ∈ (decodeStep wst item).1) ↔
      (item = MorseOut.flush ∧ wst.word ≠ "")) ∧
    (item = MorseOut.flush → wst.word ≠ "" →
      (decodeStep wst item).2 = some ⟨none, none, ""⟩) := by
  cases item with
  | letter t0 t1 txt => simp [decodeStep]
  | crash => simp [decodeStep]
  | flush =>
      by_cases hw : wst.word = ""
      · simp [decodeStep, hw]
      · simp [decodeStep, hw]


/-!  Claim theorems. -/

/-- Claim C1, counterexample.  The claim states that the rounded unit
count `iunits` is at least 1 for every edge-terminated interval with
`dt > 0` and a positive time-unit, so that `dt / iunits` never divides
by zero.  This is false: with samplerate 1, time-unit 10 and an edge one
sample after the reference point, `dt = 1 > 0` but
`iunits = round(1/10) = 0`, and the adaptive update at pd.py line 193
divides by zero (the two interval annotations are still emitted first,
and no classified symbol is forwarded). -/
theorem iunits_zero_divide_cex :
    pyRound ((((1 : ℕ) : ℚ) - ((0 : ℕ) : ℚ)) / 1 / 10) = 0 ∧
    symStep 1 ⟨0, 10⟩ (Event.edge 1 0) =
      ([SymOut.ann 0 1 0, SymOut.ann 0 1 1, SymOut.divByZero], none) := by
  have hpr : pyRound ((((1 : ℕ) : ℚ) - ((0 : ℕ) : ℚ)) / 1 / 10) = 0 := by
    have hq : (((1 : ℕ) : ℚ) - ((0 : ℕ) : ℚ)) / 1 / 10 = 1/10 := by norm_num
    rw [hq]
    exact pyRound_eq_floor_of _ 0 (by rw [Int.floor_eq_iff] <;> norm_num) (by norm_num)
  refine ⟨hpr, ?_⟩
  rw [symStep_edge_eval 1 ⟨0, 10⟩ 1 0 0 hpr]
  simp [symbols]

/-- Claim C1, amended.  For every edge-terminated interval whose unit
ratio `units = (dt / samplerate-normalised) / time-unit` exceeds 1/2,
the rounded unit count `iunits` is at least 1, and the classifier
iteration completes (the adaptive-update division `dt / iunits` is
well-defined).  For `0 < units ≤ 1/2` the round yields 0 and the update
raises a division-by-zero error: the code has no minimum-1 clamp. -/
theorem iunits_pos_of_half_lt_units (sr : ℚ) (st : SymState) (t : ℕ) (v : ℤ)
    (h : 1/2 < (((t : ℚ) - (st.prevtime : ℚ)) / sr) / st.timeunit) :
    1 ≤ pyRound ((((t : ℚ) - (st.prevtime : ℚ)) / sr) / st.timeunit) ∧
    (symStep sr st (Event.edge t v)).2.isSome := by
  have h1 := one_le_pyRound _ h
  refine ⟨h1, ?_⟩
  simp only [symStep]
  rw [if_neg (by omega :
    ¬ pyRound ((((t : ℚ) - (st.prevtime : ℚ)) / sr) / st.timeunit) = 0)]
  rfl

/-- Claim C1, witness for the amended theorem at samplerate 1, time-unit
1, an edge one sample after the reference point. -/
theorem iunits_pos_of_half_lt_units_witness :
    (1/2 : ℚ) < (((1 : ℕ) : ℚ) - ((0 : ℕ) : ℚ)) / 1 / 1 ∧
    (1 ≤ pyRound ((((1 : ℕ) : ℚ) - ((0 : ℕ) : ℚ)) / 1 / 1) ∧
      (symStep 1 ⟨0, 1⟩ (Event.edge 1 0)).2.isSome) := by
  have h : (1/2 : ℚ) < (((1 : ℕ) : ℚ) - ((0 : ℕ) : ℚ)) / 1 / 1 := by norm_num
  exact ⟨h, iunits_pos_of_half_lt_units 1 ⟨0, 1⟩ 1 0 h⟩

/-- Claim C2, counterexample.  The claim states that a word is closed
(word annotation emitted and word buffer cleared) exactly when a 7-unit
inter-word space symbol or an explicit flush marker is observed by the
word grouper.  This fails in the right-to-left direction: a flush marker
observed while the word buffer is empty emits no word annotation at all
(the word grouper leaves its state untouched). -/
theorem word_close_iff_cex :
    (decodeStep ⟨none, none, ""⟩ MorseOut.flush).1 = [] ∧
    (decodeStep ⟨none, none, ""⟩ MorseOut.flush).2 = some ⟨none, none, ""⟩ := by
  decide

/-- Claim C2, amended.  Two letters separated only by non-flush items
end up in the same word: a symbol stream without flush markers yields a
letter stream without flush markers; a letter stream without flush
markers produces no word annotation and accumulates every letter into
the one word buffer.  A word is closed exactly when the word grouper
observes a flush marker while its word buffer is non-empty (and the
buffer is then cleared); a 7-unit inter-word space symbol never reaches
the word grouper (it only terminates the pending letter). -/
theorem word_grouping_amended (mst : MorseState) (wst : WordState)
    (symIn : List SymItem) (morseIn : List MorseOut) (item : MorseOut)
    (h1 : SymItem.flush ∉ symIn)
    (h2 : ∀ it ∈ morseIn, it ≠ MorseOut.flush ∧ it ≠ MorseOut.crash) :
    MorseOut.flush ∉ decodeMorseAux mst symIn ∧
    (∀ a b w, DecodeOut.annWord a b w ∉ (decodeAux wst morseIn).1) ∧
    (∃ a b, (decodeAux wst morseIn).2 =
        some ⟨a, b, morseIn.foldl
          (fun acc it =>
            match it with
            | MorseOut.letter _ _ txt => acc ++ txt
            | _ => acc) wst.word⟩) ∧
    ((∃ a b w, DecodeOut.annWord a b w ∈ (decodeStep wst item).1) ↔
      (item = MorseOut.flush ∧ wst.word ≠ "")) ∧
    (item = MorseOut.flush → wst.word ≠ "" →
      (decodeStep wst item).2 = some ⟨none, none, ""⟩) := by
  obtain ⟨ha, hb⟩ := decodeAux_no_flush wst morseIn h2
  obtain ⟨hc, hd⟩ := decodeStep_annWord_iff wst item
  exact ⟨flush_not_mem_decodeMorseAux mst symIn h1, ha, hb, hc, hd⟩

/-- Claim C2, witness for the amended theorem: one mark symbol upstream,
one letter into a non-empty word buffer, and a flush item. -/
theorem word_grouping_amended_witness :
    SymItem.flush ∉ [SymItem.sym 0 1 1 1] ∧
    (∀ it ∈ [MorseOut.letter (some 0) (some 1) "e"],
      it ≠ MorseOut.flush ∧ it ≠ MorseOut.crash) ∧
    (MorseOut.flush ∉ decodeMorseAux ⟨[], none, none⟩ [SymItem.sym 0 1 1 1] ∧
     (∀ a b w, DecodeOut.annWord a b w ∉
        (decodeAux ⟨none, none, "hi"⟩ [MorseOut.letter (some 0) (some 1) "e"]).1) ∧
     (∃ a b, (decodeAux ⟨none, none, "hi"⟩ [MorseOut.letter (some 0) (some 1) "e"]).2 =
        some ⟨a, b, [MorseOut.letter (some 0) (some 1) "e"].foldl
          (fun acc it =>
            match it with
            | MorseOut.letter _ _ txt => acc ++ txt
            | _ => acc) (WordState.mk none none "hi").word⟩) ∧
     ((∃ a b w, DecodeOut.annWord a b w ∈
        (decodeStep ⟨none, none, "hi"⟩ MorseOut.flush).1) ↔
       (MorseOut.flush = MorseOut.flush ∧ (WordState.mk none none "hi").word ≠ "")) ∧
     (MorseOut.flush = MorseOut.flush → (WordState.mk none none "hi").word ≠ "" →
       (decodeStep ⟨none, none, "hi"⟩ MorseOut.flush).2 = some ⟨none, none, ""⟩)) := by
  refine ⟨by decide, by decide, ?_⟩
  exact word_grouping_amended ⟨[], none, none⟩ ⟨none, none, "hi"⟩
    [SymItem.sym 0 1 1 1] [MorseOut.letter (some 0) (some 1) "e"] MorseOut.flush
    (by decide) (by decide)

/-- Claim C3.  For every edge-terminated interval the classifier emits
the raw-duration (row 0) and unit-duration (row 1) annotations, and the
yielded classified symbols of that iteration are exactly one symbol
`(prevtime, curtime, (pval, iunits))` when `(pval, iunits)` is a key of
the `symbols` table and none otherwise; the keys of the `symbols` table
are exactly the five recognized pairs (1,1), (1,3), (0,1), (0,3),
(0,7). -/
theorem classified_symbol_forwarding (sr : ℚ) (st : SymState) (t : ℕ) (v : ℤ) :
    SymOut.ann st.prevtime t 0 ∈ (symStep sr st (Event.edge t v)).1 ∧
    SymOut.ann st.prevtime t 1 ∈ (symStep sr st (Event.edge t v)).1 ∧
    ((symStep sr st (Event.edge t v)).1.filterMap fun o =>
        match o with
        | SymOut.yieldSym a b p u => some (a, b, p, u)
        | _ => none) =
      (if (1 - v, pyRound ((((t : ℚ) - (st.prevtime : ℚ)) / sr) / st.timeunit))
            ∈ symbols.map Prod.fst then
        [(st.prevtime, t, 1 - v,
          pyRound ((((t : ℚ) - (st.prevtime : ℚ)) / sr) / st.timeunit))]
      else []) ∧
    (∀ p : ℤ × ℤ, p ∈ symbols.map Prod.fst ↔
      p = (1, 1) ∨ p = (1, 3) ∨ p = (0, 1) ∨ p = (0, 3) ∨ p = (0, 7)) := by
  refine ⟨?_, ?_, ?_, mem_symbols_iff⟩ <;>
    · simp only [symStep]
      split_ifs with h0 hmem hmem <;> simp [List.filterMap]

/-- Claim C4.  A space symbol of 3 or more units triggers resolution of
the current letter only (same `do_yield` block as a flush, with no
pass-through), and no flush marker is forwarded for it; an upstream
flush marker triggers the same resolution and is then passed through
downstream after the resolved letter (if any), whenever the resolution
does not raise. -/
theorem letter_flush_triggers (st : MorseState) (t0 t1 : ℕ) (u : ℤ) (h : 3 ≤ u) :
    morseStep st (SymItem.sym t0 t1 0 u) = flushLetter st false ∧
    morseStep st SymItem.flush = flushLetter st true ∧
    MorseOut.flush ∉ (flushLetter st false).1 ∧
    (flushLetter st true).2 = (flushLetter st false).2 ∧
    ((flushLetter st true).2 ≠ none →
      (flushLetter st true).1 = (flushLetter st false).1 ++ [MorseOut.flush]) := by
  refine ⟨?_, rfl, flush_not_mem_flushLetter st, ?_, ?_⟩
  · simp only [morseStep]
    rw [if_neg (by decide : ¬ (0 : ℤ) = 1), if_pos h]
  · by_cases hs : st.sequence = []
    · rw [flushLetter, flushLetter, if_neg (not_not_intro hs), if_neg (not_not_intro hs)]
    · rw [flushLetter, flushLetter, if_pos hs, if_pos hs]
      cases hres : resolve st.sequence with
      | some txt => simp [hres]
      | none => simp [hres]
  · by_cases hs : st.sequence = []
    · rw [flushLetter, flushLetter, if_neg (not_not_intro hs), if_neg (not_not_intro hs)]
      intro
      simp
    · rw [flushLetter, flushLetter, if_pos hs, if_pos hs]
      cases hres : resolve st.sequence with
      | some txt => simp [hres]
      | none => simp [hres]

/-- Claim C4, witness at the empty letter state with a 3-unit space. -/
theorem letter_flush_triggers_witness :
    (3 : ℤ) ≤ 3 ∧
    (morseStep ⟨[], none, none⟩ (SymItem.sym 0 1 0 3) =
        flushLetter ⟨[], none, none⟩ false ∧
      morseStep ⟨[], none, none⟩ SymItem.flush = flushLetter ⟨[], none, none⟩ true ∧
      MorseOut.flush ∉ (flushLetter ⟨[], none, none⟩ false).1 ∧
      (flushLetter ⟨[], none, none⟩ true).2 = (flushLetter ⟨[], none, none⟩ false).2 ∧
      ((flushLetter ⟨[], none, none⟩ true).2 ≠ none →
        (flushLetter ⟨[], none, none⟩ true).1 =
          (flushLetter ⟨[], none, none⟩ false).1 ++ [MorseOut.flush])) :=
  ⟨by decide, letter_flush_triggers ⟨[], none, none⟩ 0 1 3 (by decide)⟩

/-- Claim C5.  A flush trigger (upstream flush marker, or a space symbol
of 3 or more units) arriving while the accumulated dit/dah sequence is
empty yields no letter and leaves the letter state untouched; a flush
marker arriving while the word buffer is empty emits no word annotation
and leaves the word state untouched; and a timeout with no prior mark
produces neither a letter nor a word annotation through the whole
pipeline. -/
theorem empty_flush_absorbed (mst : MorseState) (wst : WordState) (sr tu : ℚ)
    (fr t0 t1 : ℕ) (u : ℤ)
    (h1 : mst.sequence = []) (h2 : wst.word = "") (h3 : 3 ≤ u) :
    (morseStep mst SymItem.flush).1 = [MorseOut.flush] ∧
    (morseStep mst SymItem.flush).2 = some mst ∧
    (morseStep mst (SymItem.sym t0 t1 0 u)).1 = [] ∧
    (decodeStep wst MorseOut.flush).1 = [] ∧
    (decodeStep wst MorseOut.flush).2 = some wst ∧
    pipeline sr tu fr [Event.timeout] = [] := by
  have hm : morseStep mst SymItem.flush = ([MorseOut.flush], some mst) := by
    simp only [morseStep]
    rw [flushLetter, if_neg (not_not_intro h1)]
    simp
  have hsp : morseStep mst (SymItem.sym t0 t1 0 u) = ([], some mst) := by
    simp only [morseStep]
    rw [if_neg (by decide : ¬ (0 : ℤ) = 1), if_pos h3]
    rw [flushLetter, if_neg (not_not_intro h1)]
    simp
  have hd : decodeStep wst MorseOut.flush = ([], some wst) := by
    simp [decodeStep, h2]
  exact ⟨by rw [hm], by rw [hm], by rw [hsp], by rw [hd], by rw [hd], rfl⟩

/-- Claim C5, witness at the initial states of all stages. -/
theorem empty_flush_absorbed_witness :
    (MorseState.mk [] none none).sequence = [] ∧
    (WordState.mk none none "").word = "" ∧ (3 : ℤ) ≤ 7 ∧
    ((morseStep ⟨[], none, none⟩ SymItem.flush).1 = [MorseOut.flush] ∧
      (morseStep ⟨[], none, none⟩ SymItem.flush).2 = some ⟨[], none, none⟩ ∧
      (morseStep ⟨[], none, none⟩ (SymItem.sym 2 9 0 7)).1 = [] ∧
      (decodeStep ⟨none, none, ""⟩ MorseOut.flush).1 = [] ∧
      (decodeStep ⟨none, none, ""⟩ MorseOut.flush).2 = some ⟨none, none, ""⟩ ∧
      pipeline 1 1 0 [Event.timeout] = []) :=
  ⟨rfl, rfl, by decide,
   empty_flush_absorbed ⟨[], none, none⟩ ⟨none, none, ""⟩ 1 1 0 2 9 7 rfl rfl (by decide)⟩

/-- Claim C6.  Letter resolution is total on dit/dah sequences (every
accumulated sequence has entries in `{1, 3}`): it returns the mapped
character when the sequence is a key of the alphabet table, and the
literal dots/dashes rendering otherwise, never an error. -/
theorem letter_resolution_total (seq : List ℤ) (h : ∀ x ∈ seq, x = 1 ∨ x = 3) :
    ∃ s, resolve seq = some s ∧
      (alphabet.lookup seq = some s ∨
        (alphabet.lookup seq = none ∧ encode_ditdah seq = some s)) := by
  obtain ⟨cs, hcs, -⟩ := encodeDitdahList_total seq h
  have henc : encode_ditdah seq = some (String.mk cs) := by
    simp [encode_ditdah, hcs]
  cases hl : alphabet.lookup seq with
  | some v => exact ⟨v, by simp [resolve, henc, hl], Or.inl rfl⟩
  | none => exact ⟨String.mk cs, by simp [resolve, henc, hl], Or.inr ⟨rfl, henc⟩⟩

/-- Claim C6, witness at the sequence `(1, 3)`, which the table maps to
the letter a. -/
theorem letter_resolution_total_witness :
    (∀ x ∈ ([1, 3] : List ℤ), x = 1 ∨ x = 3) ∧
    ∃ s, resolve [1, 3] = some s ∧
      (alphabet.lookup [1, 3] = some s ∨
        (alphabet.lookup [1, 3] = none ∧ encode_ditdah [1, 3] = some s)) :=
  ⟨by decide, letter_resolution_total [1, 3] (by decide)⟩

/-- Claim C7.  For every tuple over `{1, 3}`, encoding to a dots/dashes
string succeeds and decoding that string returns the original tuple. -/
theorem ditdah_round_trip (tpl : List ℤ) (h : ∀ x ∈ tpl, x = 1 ∨ x = 3) :
    ∃ s, encode_ditdah tpl = some s ∧ decode_ditdah s = some tpl := by
  obtain ⟨cs, hcs, hdec⟩ := encodeDitdahList_total tpl h
  exact ⟨String.mk cs, by simp [encode_ditdah, hcs], hdec⟩

/-- Claim C7, witness at the tuple `(1, 3, 3)`. -/
theorem ditdah_round_trip_witness :
    (∀ x ∈ ([1, 3, 3] : List ℤ), x = 1 ∨ x = 3) ∧
    ∃ s, encode_ditdah [1, 3, 3] = some s ∧ decode_ditdah s = some [1, 3, 3] :=
  ⟨by decide, ditdah_round_trip [1, 3, 3] (by decide)⟩

/-- Claim C8, counterexample.  The claim states that the tracked
time-unit is updated after every edge-terminated interval.  With
samplerate 1, time-unit 4 and an edge one sample after the reference
point, `iunits = round(1/4) = 0` and the iteration raises instead of
updating (no successor state exists for that interval). -/
theorem timeunit_update_skipped_cex :
    pyRound ((((1 : ℕ) : ℚ) - ((0 : ℕ) : ℚ)) / 1 / 4) = 0 ∧
    (symStep 1 ⟨0, 4⟩ (Event.edge 1 0)).2 = none := by
  have hpr : pyRound ((((1 : ℕ) : ℚ) - ((0 : ℕ) : ℚ)) / 1 / 4) = 0 := by
    have hq : (((1 : ℕ) : ℚ) - ((0 : ℕ) : ℚ)) / 1 / 4 = 1/4 := by norm_num
    rw [hq]
    exact pyRound_eq_floor_of _ 0 (by rw [Int.floor_eq_iff] <;> norm_num) (by norm_num)
  refine ⟨hpr, ?_⟩
  rw [symStep_edge_eval 1 ⟨0, 4⟩ 1 0 0 hpr]
  simp

/-- Claim C8, amended.  After every edge-terminated interval whose
rounded unit count `iunits` is nonzero, and only then, the tracked
time-unit is updated to exactly
`old + (dt / iunits - old) * 0.02 * iunits` (and the reference point
advances to the edge); the timeout path leaves the state untouched.
When `iunits = 0` the update raises and no successor state exists. -/
theorem timeunit_update_amended (sr : ℚ) (st : SymState) (t : ℕ) (v : ℤ)
    (h : pyRound ((((t : ℚ) - (st.prevtime : ℚ)) / sr) / st.timeunit) ≠ 0) :
    (symStep sr st (Event.edge t v)).2 =
      some ⟨t, st.timeunit +
        ((((t : ℚ) - (st.prevtime : ℚ)) / sr) /
            (pyRound ((((t : ℚ) - (st.prevtime : ℚ)) / sr) / st.timeunit) : ℚ) -
          st.timeunit) * (2/100) *
          (pyRound ((((t : ℚ) - (st.prevtime : ℚ)) / sr) / st.timeunit) : ℚ)⟩ ∧
    (symStep sr st Event.timeout).2 = some st := by
  refine ⟨?_, rfl⟩
  simp only [symStep]
  rw [if_neg h]

/-- Claim C8, witness for the amended theorem at samplerate 1, time-unit
1, an edge one sample after the reference point. -/
theorem timeunit_update_amended_witness :
    pyRound ((((1 : ℕ) : ℚ) - ((0 : ℕ) : ℚ)) / 1 / 1) ≠ 0 ∧
    ((symStep 1 ⟨0, 1⟩ (Event.edge 1 0)).2 =
      some ⟨1, (1 : ℚ) +
        ((((1 : ℕ) : ℚ) - ((0 : ℕ) : ℚ)) / 1 /
            (pyRound ((((1 : ℕ) : ℚ) - ((0 : ℕ) : ℚ)) / 1 / 1) : ℚ) - 1) * (2/100) *
          (pyRound ((((1 : ℕ) : ℚ) - ((0 : ℕ) : ℚ)) / 1 / 1) : ℚ)⟩ ∧
    (symStep 1 ⟨0, 1⟩ Event.timeout).2 = some ⟨0, 1⟩) := by
  have hpr : pyRound ((((1 : ℕ) : ℚ) - ((0 : ℕ) : ℚ)) / 1 / 1) = 1 := by
    have hq : (((1 : ℕ) : ℚ) - ((0 : ℕ) : ℚ)) / 1 / 1 = 1 := by norm_num
    rw [hq]
    exact pyRound_eq_floor_of _ 1 (by rw [Int.floor_eq_iff] <;> norm_num) (by norm_num)
  have hne : pyRound ((((1 : ℕ) : ℚ) - ((0 : ℕ) : ℚ)) / 1 / 1) ≠ 0 := by
    rw [hpr]
    decide
  exact ⟨hne, timeunit_update_amended 1 ⟨0, 1⟩ 1 0 hne⟩

/-- Claim C9.  On the timeout path the classifier yields exactly one
flush marker and changes nothing else: the reference point is not
advanced, the tracked time-unit is not updated, and no annotation is
emitted for the timed-out interval. -/
theorem timeout_frame_effect (sr : ℚ) (st : SymState) :
    symStep sr st Event.timeout = ([SymOut.yieldFlush], some st) := rfl

/-- Claim C10.  Whenever the timeout sample count
`int(5 * samplerate * timeunit)` is positive and an edge closes a
silence that classifies as a 7-unit inter-word gap, the wait protocol
for that gap times out at least once before the edge, so the classifier
output for the gap starts with a flush marker: the flush reaches the
word grouper before any (0,7) symbol can reach the letter grouper. -/
theorem flush_precedes_interword (sr tu : ℚ) (prevtime e : ℕ) (v : ℤ)
    (hsr : 0 < sr) (htu : 0 < tu)
    (hpos : 1 ≤ (5 * sr * tu).floor.toNat)
    (h7 : pyRound ((((e : ℚ) - (prevtime : ℚ)) / sr) / tu) = 7) :
    ∃ rest, decodeSymbolsAux sr ⟨prevtime, tu⟩
        (waitEvents ((5 * sr * tu).floor.toNat) prevtime e v) =
      SymOut.yieldFlush :: rest := by
  have hsr' : sr ≠ 0 := ne_of_gt hsr
  have htu' : tu ≠ 0 := ne_of_gt htu
  have hsrtu : 0 < sr * tu := mul_pos hsr htu
  have hu : (13 : ℚ)/2 ≤ (((e : ℚ) - (prevtime : ℚ)) / sr) / tu := by
    have hle := pyRound_cast_le ((((e : ℚ) - (prevtime : ℚ)) / sr) / tu)
    rw [h7] at hle
    push_cast at hle
    linarith
  have hgap : (13 : ℚ)/2 * (sr * tu) ≤ (e : ℚ) - (prevtime : ℚ) := by
    have hb : (13 : ℚ)/2 * (sr * tu) ≤
        ((((e : ℚ) - (prevtime : ℚ)) / sr) / tu) * (sr * tu) :=
      mul_le_mul_of_nonneg_right hu (le_of_lt hsrtu)
    have hc : ((((e : ℚ) - (prevtime : ℚ)) / sr) / tu) * (sr * tu) =
        (e : ℚ) - (prevtime : ℚ) := by
      field_simp
    linarith
  have hfc : ((5 * sr * tu).floor.toNat : ℚ) ≤ 5 * (sr * tu) := by
    have h0 : (0 : ℚ) ≤ 5 * sr * tu := by positivity
    have hnn : (0 : ℤ) ≤ (5 * sr * tu).floor := by
      rw [ratFloor_eq_floor]
      exact Int.floor_nonneg.mpr h0
    have hcast : (((5 * sr * tu).floor.toNat : ℤ) : ℚ) =
        (((5 * sr * tu).floor : ℤ) : ℚ) := by
      rw [Int.toNat_of_nonneg hnn]
    have hle : (((5 * sr * tu).floor : ℤ) : ℚ) ≤ 5 * sr * tu := by
      rw [ratFloor_eq_floor]
      exact Int.floor_le _
    calc ((5 * sr * tu).floor.toNat : ℚ)
        = (((5 * sr * tu).floor.toNat : ℤ) : ℚ) := by
          push_cast
          ring
      _ ≤ 5 * sr * tu := by rw [hcast]; exact hle
      _ = 5 * (sr * tu) := by ring
  have hlt : ((5 * sr * tu).floor.toNat : ℚ) < (e : ℚ) - (prevtime : ℚ) := by
    have h5 : 5 * (sr * tu) < (13 : ℚ)/2 * (sr * tu) :=
      mul_lt_mul_of_pos_right (by norm_num) hsrtu
    linarith
  have hnat : prevtime + (5 * sr * tu).floor.toNat < e := by
    have hq : ((prevtime + (5 * sr * tu).floor.toNat : ℕ) : ℚ) < ((e : ℕ) : ℚ) := by
      push_cast
      linarith
    exact_mod_cast hq
  rw [waitEvents]
  rw [dif_pos ⟨Nat.lt_of_lt_of_le Nat.zero_lt_one hpos, Nat.le_of_lt hnat⟩]
  exact ⟨_, rfl⟩

/-- Claim C10, witness: samplerate 1, time-unit 1, a 7-sample silence. -/
theorem flush_precedes_interword_witness :
    (0 : ℚ) < 1 ∧ 1 ≤ ((5 * 1 * 1 : ℚ)).floor.toNat ∧
    pyRound ((((7 : ℕ) : ℚ) - ((0 : ℕ) : ℚ)) / 1 / 1) = 7 ∧
    ∃ rest, decodeSymbolsAux 1 ⟨0, 1⟩
        (waitEvents (((5 * 1 * 1 : ℚ)).floor.toNat) 0 7 1) =
      SymOut.yieldFlush :: rest := by
  have hskip : 1 ≤ ((5 * 1 * 1 : ℚ)).floor.toNat := by
    have h5 : (5 * 1 * 1 : ℚ) = ((5 : ℤ) : ℚ) := by norm_num
    rw [h5, ratFloor_eq_floor, Int.floor_intCast]
    decide
  have h7 : pyRound ((((7 : ℕ) : ℚ) - ((0 : ℕ) : ℚ)) / 1 / 1) = 7 := by
    have hq : (((7 : ℕ) : ℚ) - ((0 : ℕ) : ℚ)) / 1 / 1 = ((7 : ℤ) : ℚ) := by norm_num
    rw [hq]
    exact pyRound_eq_floor_of _ 7 (Int.floor_intCast 7) (by norm_num)
  exact ⟨by norm_num, hskip, h7,
    flush_precedes_interword 1 1 0 7 1 (by norm_num) (by norm_num) hskip h7⟩
